import Mathlib

/-!
Verification development for the HTTP/1.x protocol layer of
st-http-proxy (file src/protocol/srs_protocol_http_stack.hpp).

The repository ships only the header: class and function declarations,
the vendored http-parser API, and its constant tables.  Definitions
below are taken from the header where it decides the question (enum
values, numeric constants); behaviour whose implementation lives in the
missing .cpp / http_parser.c files is modelled from the specification,
and each such definition says so in its doc comment.
-/

/-- The SrsHttpParseState enum exactly as declared in the source header
(lines 66-73): five values. -/
inductive SrsHttpParseState
  | SrsHttpParseStateInit
  | SrsHttpParseStateStart
  | SrsHttpParseStateHeaderComplete
  | SrsHttpParseStateBody
  | SrsHttpParseStateMessageComplete
deriving DecidableEq, Fintype, Repr

/-- CRLF constant from the source header. -/
def SRS_HTTP_CRLF : String := "\r\n"

/-- Modelled from the spec: SrsHttpHeader (implementation of set/get/del
in the missing .cpp).  Ordered name-value pairs, names compared
case-insensitively with the original case preserved, plus a separate
ordered cookie list. -/
structure SrsHttpHeader where
  headers : List (String × String)
  cookie_list : List String
deriving DecidableEq, Repr

/-- Case-insensitive (ASCII) equality of header names. -/
def hdrKeyEq (a b : String) : Bool :=
  a.data.map Char.toLower == b.data.map Char.toLower

/-- Modelled from the spec: replace the value stored under the first
case-insensitively equal name, keeping its position; append when absent. -/
def hdrSetList : List (String × String) → String → String → List (String × String)
  | [], k, v => [(k, v)]
  | kv :: rest, k, v =>
    if hdrKeyEq kv.1 k then (k, v) :: rest else kv :: hdrSetList rest k v

/-- Modelled from the spec: SrsHttpHeader::set, last-write-wins for the
canonical (case-insensitive) name. -/
def SrsHttpHeader.set (h : SrsHttpHeader) (k v : String) : SrsHttpHeader :=
  { h with headers := hdrSetList h.headers k v }

/-- Modelled from the spec: SrsHttpHeader::get, first case-insensitive
match; empty string when absent. -/
def SrsHttpHeader.get (h : SrsHttpHeader) (k : String) : String :=
  match h.headers.find? (fun kv => hdrKeyEq kv.1 k) with
  | some kv => kv.2
  | none => ""

/-- Modelled from the spec: SrsHttpHeader::addCookie always appends. -/
def SrsHttpHeader.addCookie (h : SrsHttpHeader) (c : String) : SrsHttpHeader :=
  { h with cookie_list := h.cookie_list ++ [c] }

/-- Number of stored headers whose name equals k case-insensitively. -/
def SrsHttpHeader.countKey (h : SrsHttpHeader) (k : String) : Nat :=
  (h.headers.filter (fun kv => hdrKeyEq kv.1 k)).length

/-- Modelled from the spec: serialization writes headers in insertion
order, each as Name-colon-space-value-CRLF, with the stored (original)
name case. -/
def SrsHttpHeader.write (h : SrsHttpHeader) : String :=
  (h.headers.map (fun kv => kv.1 ++ ": " ++ kv.2 ++ SRS_HTTP_CRLF)).foldr (· ++ ·) ""

/-- The empty header container. -/
def SrsHttpHeader.empty : SrsHttpHeader := ⟨[], []⟩

/-- Modelled from the spec: response-writer state (implementation of
SrsHttpResponseWriter is in the missing .cpp).  Tracks whether the
header was sent, the fixed status code, and the body chunks written. -/
structure SrsHttpResponseWriter where
  header_wrote : Bool
  status : Nat
  hdr : SrsHttpHeader
  body_out : List String
deriving DecidableEq, Repr

/-- Modelled from the spec: write_header sends the status once; calls
after the first are no-ops. -/
def SrsHttpResponseWriter.write_header (w : SrsHttpResponseWriter) (code : Nat) :
    SrsHttpResponseWriter :=
  if w.header_wrote then w else { w with header_wrote := true, status := code }

/-- Modelled from the spec: write triggers an implicit write_header 200
when no header was sent yet, then appends the data to the body. -/
def SrsHttpResponseWriter.write (w : SrsHttpResponseWriter) (data : String) :
    SrsHttpResponseWriter :=
  let w2 := if w.header_wrote then w else w.write_header 200
  { w2 with body_out := w2.body_out ++ [data] }

/-- A fresh writer, before any header was sent. -/
def SrsHttpResponseWriter.empty : SrsHttpResponseWriter :=
  ⟨false, 0, SrsHttpHeader.empty, []⟩

/-- Request method constant from the source http_method enum: OPTIONS. -/
def HTTP_OPTIONS : Nat := 6

/-- Request method constant from the source http_method enum: GET. -/
def HTTP_GET : Nat := 1

/-- Modelled from the spec: the read side of ISrsHttpMessage that the
router and the CORS filter inspect. -/
structure ISrsHttpMessage where
  method : Nat
  path : String
  host : String
  hdr : SrsHttpHeader
deriving DecidableEq, Repr

/-- Modelled from the spec: the polymorphic handler hierarchy.  The base
ISrsHttpHandler is represented by the non-notFound constructors; only
SrsHttpNotFoundHandler answers true to is_not_found. -/
inductive Handler
  | redirect (url : String) (code : Nat)
  | notFound
  | app (id : Nat)
deriving DecidableEq, Repr

/-- Modelled from the spec: ISrsHttpHandler::is_not_found returns false
in the base implementation; SrsHttpNotFoundHandler overrides it to true. -/
def Handler.is_not_found : Handler → Bool
  | .notFound => true
  | _ => false

/-- SrsHttpMuxEntry as declared in the source header: explicit-match
flag, handler, pattern and enabled flag. -/
structure SrsHttpMuxEntry where
  explicit_match : Bool
  handler : Handler
  pattern : String
  enabled : Bool
deriving DecidableEq, Repr

/-- Whether the string ends in a slash (the subtree-pattern marker). -/
def endsWithSlash (s : String) : Bool :=
  match s.data.getLast? with
  | some c => c == '/'
  | none => false

/-- Modelled from the spec: a pattern ending in a slash is a subtree
pattern and matches every path it prefixes; other patterns match only
exactly (SrsHttpServeMux::path_match in the missing .cpp). -/
def path_match (pattern path : String) : Bool :=
  if endsWithSlash pattern then pattern.data.isPrefixOf path.data else pattern == path

/-- Whether the entry is a subtree pattern that covers path p. -/
def subtree_covers (e : SrsHttpMuxEntry) (p : String) : Bool :=
  endsWithSlash e.pattern && e.pattern.data.isPrefixOf p.data

/-- Choose the entry with the longest pattern from the candidate list. -/
def longestEntry : List SrsHttpMuxEntry → Option SrsHttpMuxEntry
  | [] => none
  | e :: rest =>
    match longestEntry rest with
    | none => some e
    | some b => if b.pattern.length < e.pattern.length then some e else some b

/-- Modelled from the spec: SrsHttpServeMux::match (missing .cpp).
Exact-match lookup first; if an enabled exact entry exists it wins.
Otherwise pick, among the subtree patterns (ending in a slash) that are
a prefix of p, the one of greatest length. -/
def srsMatch (entries : List SrsHttpMuxEntry) (p : String) : Option SrsHttpMuxEntry :=
  match entries.find? (fun e => e.pattern == p && e.enabled) with
  | some e => some e
  | none => longestEntry (entries.filter (fun e => subtree_covers e p))

/-- Modelled from the spec: SrsHttpServeMux::handle refuses a duplicate
pattern, otherwise appends an enabled entry whose explicit-match flag
records that the pattern has no trailing slash. -/
def srsHandle (entries : List SrsHttpMuxEntry) (pattern : String) (h : Handler) :
    Option (List SrsHttpMuxEntry) :=
  if entries.any (fun e => e.pattern == pattern) then none
  else some (entries ++ [⟨!endsWithSlash pattern, h, pattern, true⟩])

/-- Modelled from the spec: SrsHttpServeMux::find_handler.  Match the
path; on a miss retry once with the virtual-host rewrite host ++ path
when the host is registered; otherwise fall back to the not-found
handler. -/
def find_handler (entries : List SrsHttpMuxEntry) (vhosts : List String)
    (host p : String) : Handler :=
  match srsMatch entries p with
  | some e => e.handler
  | none =>
    if host ∈ vhosts then
      match srsMatch entries (host ++ p) with
      | some e => e.handler
      | none => Handler.notFound
    else Handler.notFound

/-- The demo table of the spec scenario: subtree pattern /api/ and
explicit pattern /api/v1, both enabled. -/
def apiTable : List SrsHttpMuxEntry :=
  [⟨false, .app 1, "/api/", true⟩, ⟨true, .app 2, "/api/v1", true⟩]

/-- Modelled from the spec: a handler is a plain response function for
the purpose of the CORS filter, which wraps the worker mux. -/
def HandlerFun : Type :=
  ISrsHttpMessage → SrsHttpResponseWriter → SrsHttpResponseWriter

/-- A CORS preflight request: method OPTIONS carrying an Origin header. -/
def isPreflight (r : ISrsHttpMessage) : Bool :=
  (r.method == HTTP_OPTIONS) && !(r.hdr.get "Origin" == "")

/-- Modelled from the spec: SrsHttpCorsMux::serve_http (missing .cpp).
Disabled: transparent pass-through.  Enabled preflight: answer directly
with the access-control headers and status 200, never forwarding.
Enabled non-preflight: inject the allow-origin header, then delegate. -/
def SrsHttpCorsMux.serve_http (enabled : Bool) (next : HandlerFun)
    (r : ISrsHttpMessage) (w : SrsHttpResponseWriter) : SrsHttpResponseWriter :=
  if !enabled then next r w
  else if isPreflight r then
    let h1 := w.hdr.set "Access-Control-Allow-Origin" "*"
    let h2 := h1.set "Access-Control-Allow-Methods" "GET, POST, HEAD, PUT, DELETE, OPTIONS"
    let h3 := h2.set "Access-Control-Allow-Headers" "Content-Type"
    let w2 := { w with hdr := h3 }
    w2.write_header 200
  else
    next r { w with hdr := w.hdr.set "Access-Control-Allow-Origin" "*" }

/-- Maximum header size allowed, from the source header: the default is
80*1024 bytes (HTTP_MAX_HEADER_SIZE). -/
def HTTP_MAX_HEADER_SIZE : Nat := 80 * 1024

/-- Parsing error codes from the source http_errno enum (HPE_ prefix
dropped); the subset exercised by the model. -/
inductive HttpErrno
  | OK
  | HEADER_OVERFLOW
  | INVALID_METHOD
  | INVALID_URL
  | INVALID_VERSION
  | LF_EXPECTED
  | INVALID_HEADER_TOKEN
deriving DecidableEq, Repr

/-- Modelled from the spec: the fine-grained states of the byte-stream
machine in the missing http_parser.c — request line, header lines, then
body. -/
inductive HState
  | s_method
  | s_spaces_before_url
  | s_url
  | s_http_version
  | s_start_line_almost_done
  | s_header_field_start
  | s_header_field
  | s_header_value
  | s_header_almost_done
  | s_headers_almost_done
  | s_body
deriving DecidableEq, Repr

/-- States that belong to the header section of the message, where the
header-size counter nread applies. -/
def HState.inHeaders : HState → Bool
  | .s_body => false
  | _ => true

/-- The parser object, after struct http_parser in the source header:
micro-state, error slot, header byte counter and the configurable
header-size limit. -/
structure HttpParser where
  state : HState
  http_errno : HttpErrno
  nread : Nat
  max_header : Nat
deriving DecidableEq, Repr

/-- A character allowed in a header-field name token. -/
def isTokenChar (c : Char) : Bool :=
  c.isAlpha || c.isDigit || c == '-' || c == '_'

/-- A character allowed in a method token: an uppercase ASCII letter. -/
def isMethodChar (c : Char) : Bool := c.isUpper

/-- Modelled from the spec: the state transition for one byte once the
error and header-size checks have passed. -/
def hstep (s : HState) (c : Char) : HState × HttpErrno :=
  match s with
  | .s_method =>
    if c == ' ' then (.s_spaces_before_url, .OK)
    else if isMethodChar c then (.s_method, .OK)
    else (s, .INVALID_METHOD)
  | .s_spaces_before_url =>
    if c == ' ' then (.s_spaces_before_url, .OK)
    else if c.toNat ≥ 33 then (.s_url, .OK)
    else (s, .INVALID_URL)
  | .s_url =>
    if c == ' ' then (.s_http_version, .OK)
    else if c.toNat ≥ 33 then (.s_url, .OK)
    else (s, .INVALID_URL)
  | .s_http_version =>
    if c == '\r' then (.s_start_line_almost_done, .OK)
    else if c.isAlpha || c.isDigit || c == '/' || c == '.' then (.s_http_version, .OK)
    else (s, .INVALID_VERSION)
  | .s_start_line_almost_done =>
    if c == '\n' then (.s_header_field_start, .OK) else (s, .LF_EXPECTED)
  | .s_header_field_start =>
    if c == '\r' then (.s_headers_almost_done, .OK)
    else if isTokenChar c then (.s_header_field, .OK)
    else (s, .INVALID_HEADER_TOKEN)
  | .s_header_field =>
    if c == ':' then (.s_header_value, .OK)
    else if isTokenChar c then (.s_header_field, .OK)
    else (s, .INVALID_HEADER_TOKEN)
  | .s_header_value =>
    if c == '\r' then (.s_header_almost_done, .OK) else (.s_header_value, .OK)
  | .s_header_almost_done =>
    if c == '\n' then (.s_header_field_start, .OK) else (s, .LF_EXPECTED)
  | .s_headers_almost_done =>
    if c == '\n' then (.s_body, .OK) else (s, .LF_EXPECTED)
  | .s_body => (.s_body, .OK)

/-- Modelled from the spec: consume one byte.  A parser already in an
error state is left untouched; inside the header section the byte
counter is bumped and checked against the configured limit first, and
exceeding it raises HEADER_OVERFLOW. -/
def pstep (p : HttpParser) (c : Char) : HttpParser :=
  if p.http_errno ≠ .OK then p
  else if p.state.inHeaders then
    if p.nread + 1 > p.max_header then
      { p with nread := p.nread + 1, http_errno := .HEADER_OVERFLOW }
    else
      let se := hstep p.state c
      { p with nread := p.nread + 1, state := se.1, http_errno := se.2 }
  else
    let se := hstep p.state c
    { p with state := se.1, http_errno := se.2 }

/-- Modelled from the spec: http_parser_execute consumes the buffer byte
by byte, stopping at the first error; it returns the parser together
with the number of consumed bytes. -/
def http_parser_execute : HttpParser → List Char → HttpParser × Nat
  | p, [] => (p, 0)
  | p, c :: rest =>
    if p.http_errno ≠ .OK then (p, 0)
    else
      let r := http_parser_execute (pstep p c) rest
      (r.1, r.2 + 1)

/-- Modelled from the spec: http_parser_init resets the machine: start
state, no error, zero header bytes, default header-size limit. -/
def http_parser_init : HttpParser :=
  ⟨.s_method, .OK, 0, HTTP_MAX_HEADER_SIZE⟩

/-- Modelled from the spec: http_parser_set_max_header_size changes the
configurable header-size limit. -/
def http_parser_set_max_header_size (p : HttpParser) (size : Nat) : HttpParser :=
  { p with max_header := size }

/-- SrsHttpUri parsed fields, after the source class: scheme, host,
port, path, raw query, username, password.  Text is represented as
character lists. -/
structure SrsHttpUri where
  schema : List Char
  host : List Char
  port : Nat
  path : List Char
  query : List Char
  username : List Char
  password : List Char
deriving DecidableEq, Repr

/-- Modelled from the spec: default ports, 80 for http, 443 for https,
0 (unset) otherwise. -/
def defaultPort (sc : List Char) : Nat :=
  if sc = "http".data then 80 else if sc = "https".data then 443 else 0

/-- A character allowed in a URL scheme. -/
def isSchemaChar (c : Char) : Bool :=
  c.isAlpha || c.isDigit || c == '+' || c == '-' || c == '.'

/-- The decimal digit d as a character. -/
def digitChar (d : Nat) : Char := Char.ofNat (48 + d)

/-- Digits of n, most significant first; the first argument is fuel. -/
def natDigitsAux : Nat → Nat → List Char
  | 0, _ => []
  | fuel + 1, n => if n = 0 then [] else natDigitsAux fuel (n / 10) ++ [digitChar (n % 10)]

/-- Decimal representation of a natural number as characters. -/
def natToChars (n : Nat) : List Char := if n = 0 then ['0'] else natDigitsAux n n

/-- Numeric value of a run of decimal digit characters. -/
def portVal (l : List Char) : Nat := l.foldl (fun a c => a * 10 + (c.toNat - 48)) 0

/-- The scheme candidate: everything before the first colon. -/
def schemaCand (l : List Char) : List Char := l.takeWhile (fun c => c != ':')

/-- The remainder from the first colon on. -/
def schemaRest (l : List Char) : List Char := l.dropWhile (fun c => c != ':')

/-- Whether a remainder starts with colon-slash-slash. -/
def restHasSlashes (l : List Char) : Bool :=
  match l with
  | c1 :: c2 :: c3 :: _ => c1 == ':' && c2 == '/' && c3 == '/'
  | _ => false

/-- Whether the URL is in absolute form: a nonempty scheme of scheme
characters followed by colon-slash-slash. -/
def testAbs (l : List Char) : Bool :=
  !(schemaCand l).isEmpty && (schemaCand l).all isSchemaChar &&
    restHasSlashes (schemaRest l)

/-- Modelled from the spec: an origin-relative target is split into path
and raw query at the first question mark; scheme, host, port and
userinfo stay empty. -/
def uriPathQuery (l : List Char) : SrsHttpUri :=
  ⟨[], [], 0, l.takeWhile (fun c => c != '?'),
    (l.dropWhile (fun c => c != '?')).drop 1, [], []⟩

/-- Split a path-query tail at the first question mark. -/
def splitPathQuery (pq : List Char) : List Char × List Char :=
  (pq.takeWhile (fun c => c != '?'), (pq.dropWhile (fun c => c != '?')).drop 1)

/-- Split the authority at the first at-sign into username, password and
host-port; without an at-sign the whole authority is host-port. -/
def splitUserinfo (auth : List Char) : List Char × List Char × List Char :=
  if auth.any (fun c => c == '@') then
    (((auth.takeWhile (fun c => c != '@')).takeWhile (fun c => c != ':')),
     (((auth.takeWhile (fun c => c != '@')).dropWhile (fun c => c != ':')).drop 1),
     ((auth.dropWhile (fun c => c != '@')).drop 1))
  else ([], [], auth)

/-- The port of a host-port piece: the scheme default when no colon is
present, the digits after the colon otherwise; empty or non-digit port
text is rejected. -/
def parsePort (sc hostport : List Char) : Option Nat :=
  match hostport.dropWhile (fun c => c != ':') with
  | [] => some (defaultPort sc)
  | _ :: ds =>
    if !ds.isEmpty && ds.all Char.isDigit then some (portVal ds) else none

/-- The absolute-URL branch of URI parsing: split the part after
colon-slash-slash into authority and path-query, then decompose the
authority; a second at-sign or a malformed port is rejected. -/
def parseAbs (sc rest2 : List Char) : Option SrsHttpUri :=
  let auth := rest2.takeWhile (fun c => c != '/' && c != '?')
  let pq := rest2.dropWhile (fun c => c != '/' && c != '?')
  let pathq := splitPathQuery pq
  let ups := splitUserinfo auth
  if ups.2.2.any (fun c => c == '@') then none
  else
    match parsePort sc ups.2.2 with
    | some port =>
      some ⟨sc, ups.2.2.takeWhile (fun c => c != ':'), port, pathq.1, pathq.2,
        ups.1, ups.2.1⟩
    | none => none

/-- Modelled from the spec: SrsHttpUri parsing (initialize in the
missing .cpp).  Absolute URLs are decomposed into scheme, optional
userinfo, host, optional port, path and query; other targets are
path-plus-query with the remaining fields left empty. -/
def SrsHttpUri.parse (l : List Char) : Option SrsHttpUri :=
  if testAbs l then parseAbs (schemaCand l) ((schemaRest l).drop 3)
  else some (uriPathQuery l)

/-- The userinfo piece of the reconstructed URL: empty when both
username and password are empty, otherwise user, an optional
colon-password, and the at-sign. -/
def userinfoPart (u : SrsHttpUri) : List Char :=
  if u.username = [] ∧ u.password = [] then []
  else u.username ++ (if u.password = [] then [] else ':' :: u.password) ++ ['@']

/-- The port piece of the reconstructed URL: omitted when the port is
the scheme default. -/
def portPart (u : SrsHttpUri) : List Char :=
  if u.port = defaultPort u.schema then [] else ':' :: natToChars u.port

/-- The query piece of the reconstructed URL. -/
def queryPart (u : SrsHttpUri) : List Char :=
  if u.query = [] then [] else '?' :: u.query

/-- Modelled from the spec: SrsHttpUri::get_url reconstructs the URL
from the parsed fields. -/
def SrsHttpUri.get_url (u : SrsHttpUri) : List Char :=
  if u.schema = [] then u.path ++ queryPart u
  else u.schema ++ (':' :: '/' :: '/' :: []) ++ userinfoPart u ++ u.host
    ++ portPart u ++ u.path ++ queryPart u

/-- Well-formedness facts that hold for every URI produced by the
absolute-URL branch of the parser: nonempty scheme of scheme characters,
no separator characters inside userinfo, host and path pieces, and an
empty or slash-led path. -/
def UriAbsWF (u : SrsHttpUri) : Prop :=
  u.schema ≠ [] ∧ u.schema.all isSchemaChar = true ∧
  (∀ c ∈ u.username,
    (c != ':') = true ∧ (c != '@') = true ∧ (c != '/') = true ∧ (c != '?') = true) ∧
  (∀ c ∈ u.password, (c != '@') = true ∧ (c != '/') = true ∧ (c != '?') = true) ∧
  (∀ c ∈ u.host,
    (c != ':') = true ∧ (c != '@') = true ∧ (c != '/') = true ∧ (c != '?') = true) ∧
  (∀ c ∈ u.path, (c != '?') = true) ∧
  (u.path = [] ∨ ∃ t, u.path = '/' :: t)

/-- Well-formedness facts for every URI produced by the relative branch:
only path and query populated, the path free of question marks. -/
def UriRelWF (u : SrsHttpUri) : Prop :=
  u.schema = [] ∧ u.host = [] ∧ u.port = 0 ∧ u.username = [] ∧ u.password = [] ∧
  (∀ c ∈ u.path, (c != '?') = true)

/-- Value of a hexadecimal digit character. -/
def unhex (c : Char) : Option Nat :=
  if c.isDigit then some (c.toNat - 48)
  else if 'A' ≤ c && c ≤ 'F' then some (c.toNat - 55)
  else if 'a' ≤ c && c ≤ 'f' then some (c.toNat - 87)
  else none

/-- Modelled from the spec: percent-decoding of a query segment; a
truncated or non-hex escape sequence is a decode error, and plus stands
for space. -/
def query_unescape : List Char → Option (List Char)
  | [] => some []
  | '%' :: a :: b :: rest =>
    match unhex a, unhex b with
    | some x, some y => (query_unescape rest).map (fun r => Char.ofNat (16 * x + y) :: r)
    | _, _ => none
  | '%' :: _ => none
  | '+' :: rest => (query_unescape rest).map (fun r => ' ' :: r)
  | c :: rest => (query_unescape rest).map (fun r => c :: r)

/-- Replace the value under k, or append; used for last-wins query maps. -/
def qmapUpsert : List (List Char × List Char) → List Char → List Char →
    List (List Char × List Char)
  | [], k, v => [(k, v)]
  | kv :: rest, k, v => if kv.1 = k then (k, v) :: rest else kv :: qmapUpsert rest k v

/-- One key-value piece of a query string, both sides decoded. -/
def qkvOf (piece : List Char) : Option (List Char × List Char) :=
  let k := piece.takeWhile (fun c => c != '=')
  let v := (piece.dropWhile (fun c => c != '=')).drop 1
  match query_unescape k, query_unescape v with
  | some dk, some dv => some (dk, dv)
  | _, _ => none

/-- Modelled from the spec: the derived query map, built by splitting
the raw query on ampersands, then on the first equals sign of each
piece, percent-decoding both sides; a later occurrence of a key wins. -/
def query_values (q : List Char) : List (List Char × List Char) :=
  (q.splitOn '&').foldl
    (fun m piece =>
      match qkvOf piece with
      | some kv => qmapUpsert m kv.1 kv.2
      | none => m) []

/-! Helper lemmas about list splitting, shared by the proofs below. -/

theorem mem_takeWhile_facts {P : Char → Bool} {l : List Char} {c : Char}
    (h : c ∈ l.takeWhile P) : P c = true ∧ c ∈ l := by
  induction l with
  | nil => simp [List.takeWhile] at h
  | cons a rest ih =>
    by_cases hp : P a = true
    · rw [List.takeWhile_cons, if_pos hp] at h
      rcases List.mem_cons.mp h with rfl | h2
      · exact ⟨hp, List.mem_cons_self _ _⟩
      · exact ⟨(ih h2).1, List.mem_cons_of_mem _ (ih h2).2⟩
    · rw [List.takeWhile_cons, if_neg hp] at h
      simp at h

theorem dropWhile_head_false {P : Char → Bool} {l cs : List Char} {c : Char}
    (h : l.dropWhile P = c :: cs) : P c = false := by
  induction l with
  | nil => simp [List.dropWhile] at h
  | cons a rest ih =>
    rw [List.dropWhile_cons] at h
    by_cases hp : P a = true
    · rw [if_pos hp] at h; exact ih h
    · rw [if_neg hp] at h
      cases h
      exact Bool.not_eq_true _ ▸ (by simpa using hp)

theorem mem_dropWhile_mem {P : Char → Bool} {l : List Char} {c : Char}
    (h : c ∈ l.dropWhile P) : c ∈ l := (List.dropWhile_sublist P).mem h

theorem mem_drop_mem {l : List Char} {n : Nat} {c : Char}
    (h : c ∈ l.drop n) : c ∈ l := (List.drop_sublist n l).mem h

theorem twdw_split (P : Char → Bool) (xs ys : List Char)
    (hx : ∀ a ∈ xs, P a = true)
    (hy : ys = [] ∨ ∃ c cs, ys = c :: cs ∧ P c = false) :
    (xs ++ ys).takeWhile P = xs ∧ (xs ++ ys).dropWhile P = ys := by
  induction xs with
  | nil =>
    simp only [List.nil_append]
    rcases hy with rfl | ⟨c, cs, rfl, hc⟩
    · simp
    · rw [List.takeWhile_cons, if_neg (by simp [hc]), List.dropWhile_cons,
        if_neg (by simp [hc])]
      exact ⟨rfl, rfl⟩
  | cons a rest ih =>
    have ha : P a = true := hx a (List.mem_cons_self _ _)
    have hrest : ∀ b ∈ rest, P b = true := fun b hb => hx b (List.mem_cons_of_mem _ hb)
    have := ih hrest
    rw [List.cons_append, List.takeWhile_cons, if_pos ha, List.dropWhile_cons,
      if_pos ha, this.1, this.2]
    exact ⟨rfl, rfl⟩

/-! Claim C3: the parser-state enum. -/

/-- Claim C3 counterexample: the claim says the parser-state type has
exactly eight values, but SrsHttpParseState as declared in the source
has five, so its cardinality is not eight. -/
theorem c3_parse_state_counterexample : ¬ (Fintype.card SrsHttpParseState = 8) := by
  decide

/-- Claim C3 (amended): the parser-state value held by a parser instance
always lies in the set of the five declared values Init, Start,
HeaderComplete, Body, MessageComplete, and the state type has exactly
these five values. -/
theorem c3_parse_state_amended :
    Fintype.card SrsHttpParseState = 5 ∧
    ∀ s : SrsHttpParseState,
      s = .SrsHttpParseStateInit ∨ s = .SrsHttpParseStateStart ∨
      s = .SrsHttpParseStateHeaderComplete ∨ s = .SrsHttpParseStateBody ∨
      s = .SrsHttpParseStateMessageComplete := by
  refine ⟨by decide, ?_⟩
  intro s
  cases s <;> simp

/-! Claim C5: write_header is idempotent-once. -/

/-- Claim C5: for a writer that has not sent its header, write_header c1
followed by write_header c2 leaves status c1, the second call is a
no-op, and a write before any write_header implicitly sends status 200. -/
theorem c5_write_header_idempotent_once :
    ∀ (w : SrsHttpResponseWriter) (c1 c2 : Nat) (d : String),
      w.header_wrote = false →
      ((w.write_header c1).write_header c2).status = c1 ∧
      (w.write_header c1).write_header c2 = w.write_header c1 ∧
      (w.write d).status = 200 ∧ (w.write d).header_wrote = true := by
  intro w c1 c2 d h
  simp [SrsHttpResponseWriter.write_header, SrsHttpResponseWriter.write, h]

/-- Claim C5 witness at a fresh writer and codes 404, 500. -/
theorem c5_write_header_idempotent_once_witness :
    ((SrsHttpResponseWriter.empty.write_header 404).write_header 500).status = 404 ∧
    (SrsHttpResponseWriter.empty.write "x").status = 200 := by
  have h := c5_write_header_idempotent_once SrsHttpResponseWriter.empty 404 500 "x" rfl
  exact ⟨h.1, h.2.2.1⟩

/-! Helper lemmas for the header container. -/

theorem hdrKeyEq_iff {a b : String} :
    hdrKeyEq a b = true ↔ a.data.map Char.toLower = b.data.map Char.toLower := by
  simp [hdrKeyEq]

theorem hdrKeyEq_refl (a : String) : hdrKeyEq a a = true := by simp [hdrKeyEq]

theorem hdrKeyEq_symm {a b : String} (h : hdrKeyEq a b = true) : hdrKeyEq b a = true := by
  rw [hdrKeyEq_iff] at h ⊢
  exact h.symm

theorem hdrKeyEq_trans {a b c : String} (h1 : hdrKeyEq a b = true)
    (h2 : hdrKeyEq b c = true) : hdrKeyEq a c = true := by
  rw [hdrKeyEq_iff] at h1 h2 ⊢
  exact h1.trans h2

theorem hdrKeyEq_false_of {a b n : String} (hab : hdrKeyEq a n = false)
    (hbn : hdrKeyEq b n = true) : hdrKeyEq a b = false := by
  rcases hq : hdrKeyEq a b with _ | _
  · rfl
  · exact absurd (hdrKeyEq_trans hq hbn) (by simp [hab])

theorem find_hdrSetList (l : List (String × String)) (n v m : String)
    (hm : hdrKeyEq m n = true) :
    (hdrSetList l n v).find? (fun kv => hdrKeyEq kv.1 m) = some (n, v) := by
  have hnm : hdrKeyEq n m = true := hdrKeyEq_symm hm
  induction l with
  | nil => simp [hdrSetList, List.find?, hnm]
  | cons kv rest ih =>
    rw [hdrSetList]
    by_cases hkv : hdrKeyEq kv.1 n = true
    · rw [if_pos hkv]
      simp [List.find?, hnm]
    · rw [if_neg hkv]
      have hkvm : hdrKeyEq kv.1 m = false :=
        hdrKeyEq_false_of (by simpa using hkv) hm
      rw [List.find?_cons_of_neg _ (by simp [hkvm]), ih]

theorem get_set_keyEq (h : SrsHttpHeader) (n v m : String) (hm : hdrKeyEq m n = true) :
    (h.set n v).get m = v := by
  simp [SrsHttpHeader.get, SrsHttpHeader.set, find_hdrSetList h.headers n v m hm]

theorem find_hdrSetList_ne (l : List (String × String)) (k2 v2 k : String)
    (hne : hdrKeyEq k2 k = false) :
    (hdrSetList l k2 v2).find? (fun kv => hdrKeyEq kv.1 k)
      = l.find? (fun kv => hdrKeyEq kv.1 k) := by
  induction l with
  | nil => simp [hdrSetList, List.find?, hne]
  | cons kv rest ih =>
    rw [hdrSetList]
    by_cases hkv : hdrKeyEq kv.1 k2 = true
    · rw [if_pos hkv]
      have hk : hdrKeyEq kv.1 k = false := by
        rcases hq : hdrKeyEq kv.1 k with _ | _
        · rfl
        · exact absurd (hdrKeyEq_trans (hdrKeyEq_symm hkv) hq) (by simp [hne])
      rw [List.find?_cons_of_neg _ (by simp [hne]),
        List.find?_cons_of_neg _ (by simp [hk])]
    · rw [if_neg hkv]
      by_cases hk : hdrKeyEq kv.1 k = true
      · rw [List.find?_cons_of_pos _ (by simp [hk]),
          List.find?_cons_of_pos _ (by simp [hk])]
      · rw [List.find?_cons_of_neg _ (by simp [hk]),
          List.find?_cons_of_neg _ (by simp [hk]), ih]

theorem get_set_keyNe (h : SrsHttpHeader) (k2 v2 k : String)
    (hne : hdrKeyEq k2 k = false) : (h.set k2 v2).get k = h.get k := by
  simp [SrsHttpHeader.get, SrsHttpHeader.set, find_hdrSetList_ne h.headers k2 v2 k hne]

theorem hdrSetList_split (l : List (String × String)) (n v : String) :
    ∃ l1 l2, hdrSetList l n v = l1 ++ (n, v) :: l2 := by
  induction l with
  | nil => exact ⟨[], [], rfl⟩
  | cons kv rest ih =>
    rw [hdrSetList]
    by_cases hkv : hdrKeyEq kv.1 n = true
    · rw [if_pos hkv]
      exact ⟨[], rest, rfl⟩
    · rw [if_neg hkv]
      obtain ⟨l1, l2, hsplit⟩ := ih
      exact ⟨kv :: l1, l2, by rw [hsplit]; rfl⟩

theorem hdrLine_foldr_split (l1 l2 : List (String × String)) :
    ((l1 ++ l2).map (fun kv => kv.1 ++ ": " ++ kv.2 ++ SRS_HTTP_CRLF)).foldr
        (· ++ ·) ""
      = ((l1.map (fun kv => kv.1 ++ ": " ++ kv.2 ++ SRS_HTTP_CRLF)).foldr (· ++ ·) "")
        ++ ((l2.map (fun kv => kv.1 ++ ": " ++ kv.2 ++ SRS_HTTP_CRLF)).foldr (· ++ ·) "") := by
  induction l1 with
  | nil => simp
  | cons kv rest ih =>
    simp only [List.cons_append, List.map_cons, List.foldr_cons, ih]
    apply String.ext
    simp [String.data_append, List.append_assoc]

/-! Claim C7: case-insensitive header lookup with case-preserving output. -/

/-- Claim C7: after set n v, get m returns v for every m equal to n up
to ASCII letter case, and the serialized form still carries the original
name n. -/
theorem c7_header_case_insensitive :
    ∀ (h : SrsHttpHeader) (n v m : String), hdrKeyEq m n = true →
      (h.set n v).get m = v ∧
      ∃ pre post, (h.set n v).write
        = pre ++ (n ++ ": " ++ v ++ SRS_HTTP_CRLF) ++ post := by
  intro h n v m hm
  refine ⟨get_set_keyEq h n v m hm, ?_⟩
  obtain ⟨l1, l2, hsplit⟩ := hdrSetList_split h.headers n v
  refine ⟨(l1.map (fun kv => kv.1 ++ ": " ++ kv.2 ++ SRS_HTTP_CRLF)).foldr (· ++ ·) "",
    (l2.map (fun kv => kv.1 ++ ": " ++ kv.2 ++ SRS_HTTP_CRLF)).foldr (· ++ ·) "", ?_⟩
  show ((hdrSetList h.headers n v).map _).foldr _ "" = _
  rw [hsplit, show (n, v) :: l2 = [(n, v)] ++ l2 from rfl, ← List.append_assoc,
    hdrLine_foldr_split, hdrLine_foldr_split]
  apply String.ext
  simp [String.data_append, List.append_assoc]

/-- Claim C7 witness: setting Content-Type and reading content-TYPE. -/
theorem c7_header_case_insensitive_witness :
    (SrsHttpHeader.empty.set "Content-Type" "text/html").get "content-TYPE" = "text/html" ∧
    ∃ pre post, (SrsHttpHeader.empty.set "Content-Type" "text/html").write
      = pre ++ ("Content-Type" ++ ": " ++ "text/html" ++ SRS_HTTP_CRLF) ++ post :=
  c7_header_case_insensitive SrsHttpHeader.empty "Content-Type" "text/html"
    "content-TYPE" (by decide)

theorem filter_hdrSetList_len (l : List (String × String)) (n v : String)
    (hlen : (l.filter (fun kv => hdrKeyEq kv.1 n)).length ≤ 1) :
    ((hdrSetList l n v).filter (fun kv => hdrKeyEq kv.1 n)).length = 1 := by
  induction l with
  | nil => simp [hdrSetList, List.filter, hdrKeyEq_refl]
  | cons kv rest ih =>
    rw [hdrSetList]
    by_cases hkv : hdrKeyEq kv.1 n = true
    · rw [if_pos hkv]
      rw [List.filter_cons_of_pos (by simpa using hkv)] at hlen
      have hz : (rest.filter (fun kv => hdrKeyEq kv.1 n)).length = 0 := by
        simp only [List.length_cons] at hlen
        omega
      rw [List.filter_cons_of_pos (by simp [hdrKeyEq_refl]), List.length_cons, hz]
    · rw [if_neg hkv]
      rw [List.filter_cons_of_neg (by simpa using hkv)] at hlen
      rw [List.filter_cons_of_neg (by simpa using hkv), ih hlen]

/-! Claim C8: set is last-write-wins, cookies append. -/

/-- Claim C8: for a container holding at most one entry for n, set n v1
then set n v2 leaves get n = v2 and exactly one stored value for n,
while addCookie always appends and never overwrites. -/
theorem c8_set_last_write_wins :
    ∀ (h : SrsHttpHeader) (n v1 v2 c : String),
      h.countKey n ≤ 1 →
      ((h.set n v1).set n v2).get n = v2 ∧
      ((h.set n v1).set n v2).countKey n = 1 ∧
      (h.addCookie c).cookie_list = h.cookie_list ++ [c] := by
  intro h n v1 v2 c hlen
  refine ⟨get_set_keyEq _ n v2 n (hdrKeyEq_refl n), ?_, rfl⟩
  have h1 := filter_hdrSetList_len h.headers n v1 hlen
  exact filter_hdrSetList_len _ n v2 (by rw [show ((h.set n v1).headers)
    = hdrSetList h.headers n v1 from rfl, h1])

/-- Claim C8 witness: two writes to K keep only the second value, and a
cookie append. -/
theorem c8_set_last_write_wins_witness :
    ((SrsHttpHeader.empty.set "K" "1").set "K" "2").get "K" = "2" ∧
    ((SrsHttpHeader.empty.set "K" "1").set "K" "2").countKey "K" = 1 ∧
    (SrsHttpHeader.empty.addCookie "sid=9").cookie_list = [] ++ ["sid=9"] :=
  c8_set_last_write_wins SrsHttpHeader.empty "K" "1" "2" "sid=9" (by decide)

/-! Claim C6: the CORS filter answers preflights itself and is a
pass-through when disabled. -/

/-- Claim C6: for an enabled CORS filter and a preflight request
(OPTIONS with an Origin header) on a fresh writer, the response is the
same whatever the wrapped router does (so the router is never invoked),
it carries status 200 with the access-control allow-origin header set;
with CORS disabled every request is forwarded unchanged. -/
theorem c6_cors_preflight :
    ∀ (next1 next2 : HandlerFun) (r : ISrsHttpMessage) (w : SrsHttpResponseWriter),
      isPreflight r = true → w.header_wrote = false →
      SrsHttpCorsMux.serve_http true next1 r w = SrsHttpCorsMux.serve_http true next2 r w ∧
      (SrsHttpCorsMux.serve_http true next1 r w).status = 200 ∧
      (SrsHttpCorsMux.serve_http true next1 r w).header_wrote = true ∧
      (SrsHttpCorsMux.serve_http true next1 r w).hdr.get "Access-Control-Allow-Origin" = "*" ∧
      (∀ (next : HandlerFun) (r2 : ISrsHttpMessage) (w2 : SrsHttpResponseWriter),
        SrsHttpCorsMux.serve_http false next r2 w2 = next r2 w2) := by
  intro next1 next2 r w hpre hw
  have hserve : ∀ nx : HandlerFun, SrsHttpCorsMux.serve_http true nx r w
      = SrsHttpCorsMux.serve_http true next1 r w := by
    intro nx
    simp [SrsHttpCorsMux.serve_http, hpre]
  have hhdr : (SrsHttpCorsMux.serve_http true next1 r w).hdr
      = ((w.hdr.set "Access-Control-Allow-Origin" "*").set "Access-Control-Allow-Methods"
          "GET, POST, HEAD, PUT, DELETE, OPTIONS").set "Access-Control-Allow-Headers"
          "Content-Type" := by
    simp [SrsHttpCorsMux.serve_http, hpre, SrsHttpResponseWriter.write_header, hw]
  refine ⟨(hserve next2).symm, ?_, ?_, ?_, ?_⟩
  · simp [SrsHttpCorsMux.serve_http, hpre, SrsHttpResponseWriter.write_header, hw]
  · simp [SrsHttpCorsMux.serve_http, hpre, SrsHttpResponseWriter.write_header, hw]
  · rw [hhdr, get_set_keyNe _ _ _ _ (by decide), get_set_keyNe _ _ _ _ (by decide),
      get_set_keyEq _ _ _ _ (hdrKeyEq_refl _)]
  · intro next r2 w2
    simp [SrsHttpCorsMux.serve_http]

/-- Claim C6 witness: a concrete OPTIONS request with an Origin header
served by the enabled filter over two different routers. -/
theorem c6_cors_preflight_witness :
    (SrsHttpCorsMux.serve_http true (fun _ w => w.write_header 500)
        ⟨HTTP_OPTIONS, "/p", "h", SrsHttpHeader.empty.set "Origin" "http://example.com"⟩
        SrsHttpResponseWriter.empty
      = SrsHttpCorsMux.serve_http true (fun _ w => w.write_header 404)
        ⟨HTTP_OPTIONS, "/p", "h", SrsHttpHeader.empty.set "Origin" "http://example.com"⟩
        SrsHttpResponseWriter.empty) ∧
    (SrsHttpCorsMux.serve_http true (fun _ w => w.write_header 500)
        ⟨HTTP_OPTIONS, "/p", "h", SrsHttpHeader.empty.set "Origin" "http://example.com"⟩
        SrsHttpResponseWriter.empty).status = 200 := by
  have h := c6_cors_preflight (fun _ w => w.write_header 500) (fun _ w => w.write_header 404)
    ⟨HTTP_OPTIONS, "/p", "h", SrsHttpHeader.empty.set "Origin" "http://example.com"⟩
    SrsHttpResponseWriter.empty (by decide) rfl
  exact ⟨h.1, h.2.1⟩

/-! Helper lemmas for the parser machine. -/

theorem exec_stuck (p : HttpParser) (herr : p.http_errno ≠ .OK) :
    ∀ data, http_parser_execute p data = (p, 0) := by
  intro data
  cases data with
  | nil => rfl
  | cons c rest => simp [http_parser_execute, herr]

theorem exec_cons_ok (p : HttpParser) (c : Char) (rest : List Char)
    (h : p.http_errno = .OK) :
    http_parser_execute p (c :: rest)
      = ((http_parser_execute (pstep p c) rest).1,
         (http_parser_execute (pstep p c) rest).2 + 1) := by
  rw [http_parser_execute, if_neg (fun hh => hh h)]

theorem exec_consumed_all :
    ∀ (data : List Char) (p : HttpParser),
      (http_parser_execute p data).1.http_errno = .OK →
      (http_parser_execute p data).2 = data.length := by
  intro data
  induction data with
  | nil => intro p _; rfl
  | cons c rest ih =>
    intro p h
    by_cases herr : p.http_errno = .OK
    · rw [exec_cons_ok p c rest herr] at h ⊢
      rw [List.length_cons]
      exact congrArg (· + 1) (ih (pstep p c) h)
    · rw [exec_stuck p herr] at h
      exact absurd h herr

theorem exec_overflow :
    ∀ (k : Nat) (p : HttpParser),
      p.http_errno = .OK → p.state = .s_header_field →
      p.nread ≤ p.max_header → p.max_header < p.nread + k →
      (http_parser_execute p (List.replicate k 'a')).1.http_errno = .HEADER_OVERFLOW := by
  intro k
  induction k with
  | zero => intro p _ _ h3 h4; omega
  | succ k ih =>
    intro p h1 h2 h3 h4
    rw [List.replicate_succ, exec_cons_ok p 'a' _ h1]
    have hh : hstep .s_header_field 'a' = (.s_header_field, .OK) := by decide
    by_cases hov : p.nread + 1 > p.max_header
    · have hp2 : pstep p 'a' = { p with nread := p.nread + 1, http_errno := .HEADER_OVERFLOW } := by
        simp [pstep, h1, h2, HState.inHeaders, hov]
      rw [hp2, exec_stuck _ (by simp)]
    · have hp2 : pstep p 'a' = { p with nread := p.nread + 1, state := HState.s_header_field, http_errno := HttpErrno.OK } := by
        simp [pstep, h1, h2, HState.inHeaders, hov, hh]
      rw [hp2]
      exact ih _ rfl rfl (show p.nread + 1 ≤ p.max_header by omega)
        (show p.max_header < p.nread + 1 + k by omega)

/-! Claim C2: errors are sticky until reset. -/

/-- Claim C2: once the parser is in an error state, every subsequent
execute call returns the very same parser (hence the same error) and
consumes nothing, until http_parser_init resets the machine, which
clears the error. -/
theorem c2_parser_error_sticky :
    ∀ (p : HttpParser), p.http_errno ≠ .OK →
      (∀ data, http_parser_execute p data = (p, 0)) ∧
      http_parser_init.http_errno = .OK ∧ http_parser_init.nread = 0 := by
  intro p herr
  exact ⟨exec_stuck p herr, rfl, rfl⟩

/-- Claim C2 witness: a structurally invalid method byte puts the parser
into an error state, and feeding more bytes afterwards is a no-op. -/
theorem c2_parser_error_sticky_witness :
    http_parser_execute (http_parser_execute http_parser_init ("G@T /".data)).1
        ("more bytes".data)
      = ((http_parser_execute http_parser_init ("G@T /".data)).1, 0) :=
  (c2_parser_error_sticky (http_parser_execute http_parser_init ("G@T /".data)).1
    (by decide)).1 ("more bytes".data)

/-! Claim C9: no chunk-size limit, configurable header-size limit with
default 80 KiB, exceeded limit raises HEADER_OVERFLOW. -/

/-- Claim C9: the default header-size limit is 80*1024 bytes and is the
configurable limit installed by init; execute consumes every byte of a
chunk of any size as long as no error arises (no internal chunk-size
maximum); and a header section growing past the configured limit makes
parsing fail with HEADER_OVERFLOW. -/
theorem c9_header_overflow :
    HTTP_MAX_HEADER_SIZE = 80 * 1024 ∧
    http_parser_init.max_header = HTTP_MAX_HEADER_SIZE ∧
    (∀ (p : HttpParser) (size : Nat),
      (http_parser_set_max_header_size p size).max_header = size) ∧
    (∀ (data : List Char) (p : HttpParser),
      (http_parser_execute p data).1.http_errno = .OK →
      (http_parser_execute p data).2 = data.length) ∧
    (∀ (k : Nat) (p : HttpParser),
      p.http_errno = .OK → p.state = .s_header_field →
      p.nread ≤ p.max_header → p.max_header < p.nread + k →
      (http_parser_execute p (List.replicate k 'a')).1.http_errno = .HEADER_OVERFLOW) :=
  ⟨rfl, rfl, fun _ _ => rfl, exec_consumed_all, exec_overflow⟩

/-- Claim C9 witness: a full chunk is consumed error-free, and with the
limit configured to 20 bytes a request whose header section keeps
growing fails with HEADER_OVERFLOW. -/
theorem c9_header_overflow_witness :
    (http_parser_execute http_parser_init "GET /".data).2 = "GET /".data.length ∧
    (http_parser_execute
        (http_parser_execute (http_parser_set_max_header_size http_parser_init 20)
          "GET / HTTP/1.1\r\nA".data).1
        (List.replicate 10 'a')).1.http_errno = .HEADER_OVERFLOW :=
  ⟨c9_header_overflow.2.2.2.1 "GET /".data http_parser_init (by decide),
   c9_header_overflow.2.2.2.2 10
     (http_parser_execute (http_parser_set_max_header_size http_parser_init 20)
       "GET / HTTP/1.1\r\nA".data).1
     (by decide) (by decide) (by decide) (by decide)⟩

/-! Helper lemmas for the router. -/

theorem longestEntry_eq_none {l : List SrsHttpMuxEntry} (h : longestEntry l = none) :
    l = [] := by
  cases l with
  | nil => rfl
  | cons a rest =>
    cases hrest : longestEntry rest with
    | none =>
      simp only [longestEntry, hrest] at h
      cases h
    | some b =>
      simp only [longestEntry, hrest] at h
      by_cases hlt : b.pattern.length < a.pattern.length
      · rw [if_pos hlt] at h; cases h
      · rw [if_neg hlt] at h; cases h

theorem longestEntry_mem :
    ∀ (l : List SrsHttpMuxEntry) (e : SrsHttpMuxEntry),
      longestEntry l = some e → e ∈ l := by
  intro l
  induction l with
  | nil => intro e h; cases h
  | cons a rest ih =>
    intro e h
    cases hrest : longestEntry rest with
    | none =>
      simp only [longestEntry, hrest] at h
      obtain rfl : a = e := by injection h
      exact List.mem_cons_self _ _
    | some b =>
      simp only [longestEntry, hrest] at h
      by_cases hlt : b.pattern.length < a.pattern.length
      · rw [if_pos hlt] at h
        obtain rfl : a = e := by injection h
        exact List.mem_cons_self _ _
      · rw [if_neg hlt] at h
        obtain rfl : b = e := by injection h
        exact List.mem_cons_of_mem _ (ih _ hrest)

theorem longestEntry_max :
    ∀ (l : List SrsHttpMuxEntry) (e x : SrsHttpMuxEntry),
      longestEntry l = some e → x ∈ l → x.pattern.length ≤ e.pattern.length := by
  intro l
  induction l with
  | nil => intro e x h hx; cases h
  | cons a rest ih =>
    intro e x h hx
    rcases List.mem_cons.mp hx with rfl | hxr
    · cases hrest : longestEntry rest with
      | none =>
        simp only [longestEntry, hrest] at h
        obtain rfl : x = e := by injection h
        exact le_refl _
      | some b =>
        simp only [longestEntry, hrest] at h
        by_cases hlt : b.pattern.length < x.pattern.length
        · rw [if_pos hlt] at h
          obtain rfl : x = e := by injection h
          exact le_refl _
        · rw [if_neg hlt] at h
          obtain rfl : b = e := by injection h
          omega
    · cases hrest : longestEntry rest with
      | none =>
        rw [longestEntry_eq_none hrest] at hxr
        cases hxr
      | some b =>
        simp only [longestEntry, hrest] at h
        have hxb := ih b x hrest hxr
        by_cases hlt : b.pattern.length < a.pattern.length
        · rw [if_pos hlt] at h
          obtain rfl : a = e := by injection h
          omega
        · rw [if_neg hlt] at h
          obtain rfl : b = e := by injection h
          exact hxb

theorem srsMatch_mem {entries : List SrsHttpMuxEntry} {p : String} {e : SrsHttpMuxEntry}
    (h : srsMatch entries p = some e) : e ∈ entries := by
  rw [srsMatch] at h
  cases hf : entries.find? (fun x => x.pattern == p && x.enabled) with
  | some x =>
    rw [hf] at h
    simp only [] at h
    obtain rfl : x = e := by injection h
    exact List.mem_of_find?_eq_some hf
  | none =>
    rw [hf] at h
    exact (List.mem_filter.mp (longestEntry_mem _ _ h)).1

/-! Claim C1: exact match wins, otherwise the longest covering subtree
pattern. -/

/-- Claim C1: srsMatch selects the enabled exact-match entry for p when
one exists; otherwise it selects, among all patterns ending in a slash
that are a prefix of p, the one of greatest length; on the table with
/api/ and /api/v1 registered, /api/v1/x selects /api/ while /api/v1
selects /api/v1. -/
theorem c1_router_match_spec :
    ∀ (entries : List SrsHttpMuxEntry) (p : String),
      ((∃ e ∈ entries, e.pattern = p ∧ e.enabled = true) →
        ∃ e, srsMatch entries p = some e ∧ e ∈ entries ∧ e.pattern = p ∧
          e.enabled = true) ∧
      ((¬ ∃ e ∈ entries, e.pattern = p ∧ e.enabled = true) →
        (∃ e ∈ entries, subtree_covers e p = true) →
        ∃ e, srsMatch entries p = some e ∧ e ∈ entries ∧ subtree_covers e p = true ∧
          ∀ e2 ∈ entries, subtree_covers e2 p = true →
            e2.pattern.length ≤ e.pattern.length) ∧
      srsMatch apiTable "/api/v1/x" = some ⟨false, Handler.app 1, "/api/", true⟩ ∧
      srsMatch apiTable "/api/v1" = some ⟨true, Handler.app 2, "/api/v1", true⟩ := by
  intro entries p
  refine ⟨?_, ?_, by decide, by decide⟩
  · rintro ⟨e0, he0, hpat, hen⟩
    cases hf : entries.find? (fun e => e.pattern == p && e.enabled) with
    | none =>
      exfalso
      have hn := List.find?_eq_none.mp hf e0 he0
      simp [hpat, hen] at hn
    | some e =>
      have hpred := List.find?_some hf
      have hmem := List.mem_of_find?_eq_some hf
      simp only [Bool.and_eq_true, beq_iff_eq] at hpred
      exact ⟨e, by rw [srsMatch, hf], hmem, hpred.1, hpred.2⟩
  · rintro hno ⟨e0, he0, hcov⟩
    cases hf : entries.find? (fun e => e.pattern == p && e.enabled) with
    | some e =>
      exfalso
      have hpred := List.find?_some hf
      have hmem := List.mem_of_find?_eq_some hf
      simp only [Bool.and_eq_true, beq_iff_eq] at hpred
      exact hno ⟨e, hmem, hpred.1, hpred.2⟩
    | none =>
      have hfil : e0 ∈ entries.filter (fun e => subtree_covers e p) :=
        List.mem_filter.mpr ⟨he0, hcov⟩
      cases hle : longestEntry (entries.filter (fun e => subtree_covers e p)) with
      | none =>
        exfalso
        rw [longestEntry_eq_none hle] at hfil
        cases hfil
      | some e =>
        have hmem := longestEntry_mem _ _ hle
        have hemem := (List.mem_filter.mp hmem).1
        have hecov := (List.mem_filter.mp hmem).2
        refine ⟨e, by rw [srsMatch, hf, hle], hemem, hecov, ?_⟩
        intro e2 he2 hcov2
        exact longestEntry_max _ e e2 hle (List.mem_filter.mpr ⟨he2, hcov2⟩)

/-- Claim C1 witness: both lookup modes exercised on the /api/ table. -/
theorem c1_router_match_spec_witness :
    (∃ e, srsMatch apiTable "/api/v1" = some e ∧ e ∈ apiTable ∧
      e.pattern = "/api/v1" ∧ e.enabled = true) ∧
    (∃ e, srsMatch apiTable "/api/v1/x" = some e ∧ e ∈ apiTable ∧
      subtree_covers e "/api/v1/x" = true ∧
      ∀ e2 ∈ apiTable, subtree_covers e2 "/api/v1/x" = true →
        e2.pattern.length ≤ e.pattern.length) := by
  refine ⟨(c1_router_match_spec apiTable "/api/v1").1 ?_,
    (c1_router_match_spec apiTable "/api/v1/x").2.1 ?_ ?_⟩
  · exact ⟨⟨true, Handler.app 2, "/api/v1", true⟩, by decide, rfl, rfl⟩
  · decide
  · exact ⟨⟨false, Handler.app 1, "/api/", true⟩, by decide, by decide⟩

/-! Claim C10: is_not_found discriminates router misses. -/

/-- Claim C10: the base handler answers false to is_not_found and only
the not-found handler answers true; hence, when every registered handler
is a base handler, the handler chosen by find_handler answers true
exactly when both the direct match and the virtual-host retry missed. -/
theorem c10_is_not_found_discriminator :
    ∀ (entries : List SrsHttpMuxEntry) (vhosts : List String) (host p : String),
      (∀ e ∈ entries, e.handler.is_not_found = false) →
      Handler.notFound.is_not_found = true ∧
      (∀ h : Handler, h ≠ Handler.notFound → h.is_not_found = false) ∧
      ((find_handler entries vhosts host p).is_not_found = true ↔
        (srsMatch entries p = none ∧
          (host ∈ vhosts → srsMatch entries (host ++ p) = none))) := by
  intro entries vhosts host p hreg
  refine ⟨rfl, ?_, ?_⟩
  · intro h hne
    cases h with
    | notFound => exact absurd rfl hne
    | redirect u c => rfl
    | app i => rfl
  · cases hm : srsMatch entries p with
    | some e =>
      simp only [find_handler, hm]
      constructor
      · intro habs
        rw [hreg e (srsMatch_mem hm)] at habs
        cases habs
      · rintro ⟨h1, _⟩
        cases h1
    | none =>
      by_cases hv : host ∈ vhosts
      · cases hm2 : srsMatch entries (host ++ p) with
        | some e2 =>
          simp only [find_handler, hm, if_pos hv, hm2]
          constructor
          · intro habs
            rw [hreg e2 (srsMatch_mem hm2)] at habs
            cases habs
          · rintro ⟨_, h2⟩
            cases h2 hv
        | none =>
          simp only [find_handler, hm, if_pos hv, hm2]
          constructor
          · intro _
            exact ⟨trivial, fun _ => trivial⟩
          · intro _
            rfl
      · simp only [find_handler, hm, if_neg hv]
        constructor
        · intro _
          exact ⟨trivial, fun hvv => absurd hvv hv⟩
        · intro _
          rfl

/-- Claim C10 witness: a miss on the /api/ table yields the not-found
handler, a hit does not. -/
theorem c10_is_not_found_discriminator_witness :
    (find_handler apiTable [] "h" "/nope").is_not_found = true ∧
    (find_handler apiTable [] "h" "/api/v1").is_not_found = false := by
  have h1 := c10_is_not_found_discriminator apiTable [] "h" "/nope" (by decide)
  have h2 := c10_is_not_found_discriminator apiTable [] "h" "/api/v1" (by decide)
  refine ⟨h1.2.2.mpr ⟨by decide, fun hv => absurd hv (List.not_mem_nil _)⟩, ?_⟩
  have hno : ¬ ((find_handler apiTable [] "h" "/api/v1").is_not_found = true) := by
    rw [h2.2.2]
    rintro ⟨hc, _⟩
    rw [show srsMatch apiTable "/api/v1"
      = some ⟨true, Handler.app 2, "/api/v1", true⟩ from by decide] at hc
    cases hc
  simpa using hno

/-! Helper lemmas for the URI codec: digits. -/

theorem digitChar_props {d : Nat} (h : d < 10) :
    (digitChar d).isDigit = true ∧ (digitChar d != ':') = true ∧
    (digitChar d != '/') = true ∧ (digitChar d != '?') = true ∧
    (digitChar d != '@') = true ∧ (digitChar d).toNat = 48 + d := by
  interval_cases d <;> exact (by decide)

theorem natDigitsAux_mem :
    ∀ (fuel n : Nat), n ≤ fuel → ∀ c ∈ natDigitsAux fuel n,
      ∃ d, d < 10 ∧ c = digitChar d := by
  intro fuel
  induction fuel with
  | zero => intro n _ c hc; simp [natDigitsAux] at hc
  | succ fuel ih =>
    intro n hn c hc
    rw [natDigitsAux] at hc
    by_cases h0 : n = 0
    · rw [if_pos h0] at hc; simp at hc
    · rw [if_neg h0] at hc
      rcases List.mem_append.mp hc with h1 | h2
      · have hlt : n / 10 ≤ fuel := by
          have := Nat.div_lt_self (Nat.pos_of_ne_zero h0) (by norm_num : 1 < 10)
          omega
        exact ih (n / 10) hlt c h1
      · rcases List.mem_singleton.mp h2 with rfl
        exact ⟨n % 10, Nat.mod_lt _ (by norm_num), rfl⟩

theorem natToChars_mem {n : Nat} {c : Char} (hc : c ∈ natToChars n) :
    ∃ d, d < 10 ∧ c = digitChar d := by
  rw [natToChars] at hc
  by_cases h0 : n = 0
  · rw [if_pos h0] at hc
    rcases List.mem_singleton.mp hc with rfl
    exact ⟨0, by norm_num, by decide⟩
  · rw [if_neg h0] at hc
    exact natDigitsAux_mem n n (le_refl n) c hc

theorem natToChars_ne_nil (n : Nat) : natToChars n ≠ [] := by
  rw [natToChars]
  by_cases h0 : n = 0
  · rw [if_pos h0]; simp
  · rw [if_neg h0]
    cases hn : n with
    | zero => exact absurd hn h0
    | succ m =>
      rw [natDigitsAux]
      simp

theorem natDigitsAux_foldl :
    ∀ (fuel n : Nat), n ≤ fuel → ∀ (a : Nat),
      (natDigitsAux fuel n).foldl (fun x c => x * 10 + (c.toNat - 48)) a
        = a * 10 ^ (natDigitsAux fuel n).length + n := by
  intro fuel
  induction fuel with
  | zero =>
    intro n hn a
    have : n = 0 := Nat.le_zero.mp hn
    subst this
    simp [natDigitsAux]
  | succ fuel ih =>
    intro n hn a
    by_cases h0 : n = 0
    · subst h0; simp [natDigitsAux]
    · rw [natDigitsAux, if_neg h0]
      have hlt : n / 10 ≤ fuel := by
        have := Nat.div_lt_self (Nat.pos_of_ne_zero h0) (by norm_num : 1 < 10)
        omega
      rw [List.foldl_append, ih (n / 10) hlt a]
      have htn : (digitChar (n % 10)).toNat = 48 + n % 10 :=
        (digitChar_props (Nat.mod_lt _ (by norm_num))).2.2.2.2.2
      have hdm : n / 10 * 10 + n % 10 = n := by omega
      simp only [List.foldl_cons, List.foldl_nil, List.length_append,
        List.length_singleton, htn]
      have hsub : 48 + n % 10 - 48 = n % 10 := by omega
      rw [hsub]
      calc (a * 10 ^ (natDigitsAux fuel (n / 10)).length + n / 10) * 10 + n % 10
          = a * (10 ^ (natDigitsAux fuel (n / 10)).length * 10)
            + (n / 10 * 10 + n % 10) := by ring
        _ = a * 10 ^ ((natDigitsAux fuel (n / 10)).length + 1) + n := by
            rw [hdm, pow_succ]

theorem portVal_natToChars (n : Nat) : portVal (natToChars n) = n := by
  rw [portVal, natToChars]
  by_cases h0 : n = 0
  · rw [if_pos h0, h0]; decide
  · rw [if_neg h0, natDigitsAux_foldl n n (le_refl n) 0]
    simp

/-! Helper lemmas for the URI codec: characters and list splits. -/

theorem schemaChar_ne_colon {c : Char} (h : isSchemaChar c = true) : (c != ':') = true := by
  rcases eq_or_ne c ':' with rfl | hne
  · exact absurd h (by decide)
  · simpa [bne_iff_ne] using hne

theorem takeWhile_append_all {P : Char → Bool} {xs : List Char} (ys : List Char)
    (hx : ∀ a ∈ xs, P a = true) :
    (xs ++ ys).takeWhile P = xs ++ ys.takeWhile P := by
  induction xs with
  | nil => simp
  | cons a rest ih =>
    have ha : P a = true := hx a (List.mem_cons_self _ _)
    rw [List.cons_append, List.takeWhile_cons, if_pos ha,
      ih (fun b hb => hx b (List.mem_cons_of_mem _ hb))]
    rfl

theorem dropWhile_nil_all {P : Char → Bool} {l : List Char} (h : l.dropWhile P = []) :
    ∀ c ∈ l, P c = true := by
  induction l with
  | nil => intro c hc; cases hc
  | cons a rest ih =>
    intro c hc
    rw [List.dropWhile_cons] at h
    by_cases ha : P a = true
    · rw [if_pos ha] at h
      rcases List.mem_cons.mp hc with rfl | hcr
      · exact ha
      · exact ih h c hcr
    · rw [if_neg ha] at h
      cases h

theorem splitPathQuery_recover {u : SrsHttpUri}
    (h : ∀ c ∈ u.path, (c != '?') = true) :
    splitPathQuery (u.path ++ queryPart u) = (u.path, u.query) := by
  rw [splitPathQuery, queryPart]
  by_cases hq : u.query = []
  · rw [if_pos hq, List.append_nil]
    have hs := twdw_split (fun c => c != '?') u.path [] h (Or.inl rfl)
    rw [List.append_nil] at hs
    rw [hs.1, hs.2, hq]
    rfl
  · rw [if_neg hq]
    have hs := twdw_split (fun c => c != '?') u.path ('?' :: u.query) h
      (Or.inr ⟨'?', u.query, rfl, by decide⟩)
    rw [hs.1, hs.2]
    rfl

theorem userinfoPart_authP {u : SrsHttpUri} (h : UriAbsWF u) :
    ∀ a ∈ userinfoPart u, (a != '/' && a != '?') = true := by
  intro a ha
  rw [userinfoPart] at ha
  by_cases hb : u.username = [] ∧ u.password = []
  · rw [if_pos hb] at ha
    cases ha
  · rw [if_neg hb] at ha
    rcases List.mem_append.mp ha with h1 | h2
    · rcases List.mem_append.mp h1 with hu | hx
      · have hf := h.2.2.1 a hu
        simp [hf.2.2.1, hf.2.2.2]
      · by_cases hp : u.password = []
        · rw [if_pos hp] at hx
          cases hx
        · rw [if_neg hp] at hx
          rcases List.mem_cons.mp hx with rfl | hpp
          · decide
          · have hf := h.2.2.2.1 a hpp
            simp [hf.2.1, hf.2.2]
    · rcases List.mem_singleton.mp h2 with rfl
      decide

theorem userinfoPart_no_at {u : SrsHttpUri} (h : UriAbsWF u) :
    ∀ a ∈ u.username ++ (if u.password = [] then [] else ':' :: u.password),
      (a != '@') = true := by
  intro a ha
  rcases List.mem_append.mp ha with hu | hx
  · exact (h.2.2.1 a hu).2.1
  · by_cases hp : u.password = []
    · rw [if_pos hp] at hx
      cases hx
    · rw [if_neg hp] at hx
      rcases List.mem_cons.mp hx with rfl | hpp
      · decide
      · exact (h.2.2.2.1 a hpp).1

theorem hostport_authP {u : SrsHttpUri} (h : UriAbsWF u) :
    ∀ a ∈ u.host ++ portPart u, (a != '/' && a != '?') = true := by
  intro a ha
  rcases List.mem_append.mp ha with hh | hp
  · have hf := h.2.2.2.2.1 a hh
    simp [hf.2.2.1, hf.2.2.2]
  · rw [portPart] at hp
    by_cases hd : u.port = defaultPort u.schema
    · rw [if_pos hd] at hp
      cases hp
    · rw [if_neg hd] at hp
      rcases List.mem_cons.mp hp with rfl | hds
      · decide
      · obtain ⟨d, hd10, rfl⟩ := natToChars_mem hds
        have hf := digitChar_props hd10
        simp [hf.2.2.1, hf.2.2.2.1]

theorem hostport_no_at {u : SrsHttpUri} (h : UriAbsWF u) :
    (u.host ++ portPart u).any (fun c => c == '@') = false := by
  rw [List.any_eq_false]
  intro a ha
  rcases List.mem_append.mp ha with hh | hp
  · have hf := (h.2.2.2.2.1 a hh).2.1
    simpa [bne] using hf
  · rw [portPart] at hp
    by_cases hd : u.port = defaultPort u.schema
    · rw [if_pos hd] at hp
      cases hp
    · rw [if_neg hd] at hp
      rcases List.mem_cons.mp hp with rfl | hds
      · decide
      · obtain ⟨d, hd10, rfl⟩ := natToChars_mem hds
        have hf := (digitChar_props hd10).2.2.2.2.1
        simpa [bne] using hf

theorem auth_recover {u : SrsHttpUri} (h : UriAbsWF u) :
    ((userinfoPart u ++ (u.host ++ portPart u)) ++ (u.path ++ queryPart u)).takeWhile
        (fun c => c != '/' && c != '?') = userinfoPart u ++ (u.host ++ portPart u) ∧
    ((userinfoPart u ++ (u.host ++ portPart u)) ++ (u.path ++ queryPart u)).dropWhile
        (fun c => c != '/' && c != '?') = u.path ++ queryPart u := by
  apply twdw_split
  · intro a ha
    rcases List.mem_append.mp ha with h1 | h2
    · exact userinfoPart_authP h a h1
    · exact hostport_authP h a h2
  · rcases h.2.2.2.2.2.2 with hpe | ⟨t, hpt⟩
    · rw [hpe, List.nil_append, queryPart]
      by_cases hq : u.query = []
      · rw [if_pos hq]
        exact Or.inl rfl
      · rw [if_neg hq]
        exact Or.inr ⟨'?', u.query, rfl, by decide⟩
    · rw [hpt]
      exact Or.inr ⟨'/', t ++ queryPart u, by simp, by decide⟩

theorem splitUserinfo_recover {u : SrsHttpUri} (h : UriAbsWF u) :
    splitUserinfo (userinfoPart u ++ (u.host ++ portPart u))
      = (u.username, u.password, u.host ++ portPart u) := by
  by_cases hb : u.username = [] ∧ u.password = []
  · have hup : userinfoPart u = [] := by rw [userinfoPart, if_pos hb]
    simp [hup, splitUserinfo, hostport_no_at h, hb.1, hb.2]
  · have huser : ∀ a ∈ u.username, ((fun c => c != '@') a) = true :=
      fun a ha => (h.2.2.1 a ha).2.1
    have husercolon : ∀ a ∈ u.username, ((fun c => c != ':') a) = true :=
      fun a ha => (h.2.2.1 a ha).1
    by_cases hp : u.password = []
    · have hassoc : userinfoPart u ++ (u.host ++ portPart u)
          = u.username ++ ('@' :: (u.host ++ portPart u)) := by
        rw [userinfoPart, if_neg hb, if_pos hp]
        simp [List.append_assoc]
      have hs := twdw_split (fun c => c != '@') u.username ('@' :: (u.host ++ portPart u))
        huser (Or.inr ⟨'@', _, rfl, by decide⟩)
      have hat : (userinfoPart u ++ (u.host ++ portPart u)).any (fun c => c == '@') = true := by
        rw [List.any_eq_true]
        exact ⟨'@', by rw [hassoc]; simp, by decide⟩
      have hu2 := twdw_split (fun c => c != ':') u.username [] husercolon (Or.inl rfl)
      rw [List.append_nil] at hu2
      rw [splitUserinfo, if_pos hat, hassoc, hs.1, hs.2, hu2.1, hu2.2, hp]
      rfl
    · have hcp : ∀ a ∈ u.username ++ ':' :: u.password, ((fun c => c != '@') a) = true := by
        intro a ha
        rcases List.mem_append.mp ha with h1 | h2
        · exact huser a h1
        · rcases List.mem_cons.mp h2 with rfl | h3
          · decide
          · exact (h.2.2.2.1 a h3).1
      have hassoc : userinfoPart u ++ (u.host ++ portPart u)
          = (u.username ++ ':' :: u.password) ++ ('@' :: (u.host ++ portPart u)) := by
        rw [userinfoPart, if_neg hb, if_neg hp]
        simp [List.append_assoc]
      have hs := twdw_split (fun c => c != '@') (u.username ++ ':' :: u.password)
        ('@' :: (u.host ++ portPart u)) hcp (Or.inr ⟨'@', _, rfl, by decide⟩)
      have hat : (userinfoPart u ++ (u.host ++ portPart u)).any (fun c => c == '@') = true := by
        rw [List.any_eq_true]
        exact ⟨'@', by rw [hassoc]; simp, by decide⟩
      have hu2 := twdw_split (fun c => c != ':') u.username (':' :: u.password)
        husercolon (Or.inr ⟨':', _, rfl, by decide⟩)
      rw [splitUserinfo, if_pos hat, hassoc, hs.1, hs.2, hu2.1, hu2.2]
      rfl

theorem parsePort_recover {u : SrsHttpUri} (h : UriAbsWF u) :
    parsePort u.schema (u.host ++ portPart u) = some u.port ∧
    (u.host ++ portPart u).takeWhile (fun c => c != ':') = u.host := by
  have hhost : ∀ a ∈ u.host, ((fun c => c != ':') a) = true :=
    fun a ha => (h.2.2.2.2.1 a ha).1
  rw [portPart]
  by_cases hd : u.port = defaultPort u.schema
  · rw [if_pos hd, List.append_nil]
    have hs := twdw_split (fun c => c != ':') u.host [] hhost (Or.inl rfl)
    rw [List.append_nil] at hs
    constructor
    · rw [parsePort, hs.2, hd]
    · exact hs.1
  · rw [if_neg hd]
    have hs := twdw_split (fun c => c != ':') u.host (':' :: natToChars u.port) hhost
      (Or.inr ⟨':', _, rfl, by decide⟩)
    constructor
    · rw [parsePort, hs.2]
      have hne : (natToChars u.port).isEmpty = false := by
        cases hx : natToChars u.port with
        | nil => exact absurd hx (natToChars_ne_nil u.port)
        | cons a l => rfl
      have hdig : (natToChars u.port).all Char.isDigit = true := by
        rw [List.all_eq_true]
        intro c hc
        obtain ⟨d, hd10, rfl⟩ := natToChars_mem hc
        exact (digitChar_props hd10).1
      simp [hne, hdig, portVal_natToChars]
    · exact hs.1

theorem parseAbs_eval (sc rest2 auth pq user pass hp : List Char)
    (ha1 : rest2.takeWhile (fun c => c != '/' && c != '?') = auth)
    (ha2 : rest2.dropWhile (fun c => c != '/' && c != '?') = pq)
    (hsu : splitUserinfo auth = (user, pass, hp))
    (hat : hp.any (fun c => c == '@') = false)
    (port : Nat) (hpp : parsePort sc hp = some port) :
    parseAbs sc rest2
      = some ⟨sc, hp.takeWhile (fun c => c != ':'), port, (splitPathQuery pq).1,
          (splitPathQuery pq).2, user, pass⟩ := by
  simp only [parseAbs, ha1, ha2, hsu]
  rw [hat, if_neg Bool.false_ne_true, hpp]

theorem parse_get_url_abs {u : SrsHttpUri} (h : UriAbsWF u) :
    SrsHttpUri.parse u.get_url = some u := by
  have hscP : ∀ a ∈ u.schema, ((fun c => c != ':') a) = true := by
    intro a ha
    exact schemaChar_ne_colon (List.all_eq_true.mp h.2.1 a ha)
  have hT : u.get_url
      = u.schema ++ (':' :: '/' :: '/' ::
          ((userinfoPart u ++ (u.host ++ portPart u)) ++ (u.path ++ queryPart u))) := by
    rw [SrsHttpUri.get_url, if_neg h.1]
    simp [List.append_assoc]
  have hs := twdw_split (fun c => c != ':') u.schema
    (':' :: '/' :: '/' ::
      ((userinfoPart u ++ (u.host ++ portPart u)) ++ (u.path ++ queryPart u)))
    hscP (Or.inr ⟨':', _, rfl, by decide⟩)
  have hcand : schemaCand u.get_url = u.schema := by
    rw [schemaCand, hT]
    exact hs.1
  have hrest : schemaRest u.get_url = ':' :: '/' :: '/' ::
      ((userinfoPart u ++ (u.host ++ portPart u)) ++ (u.path ++ queryPart u)) := by
    rw [schemaRest, hT]
    exact hs.2
  have hie : u.schema.isEmpty = false := by
    cases hx : u.schema with
    | nil => exact absurd hx h.1
    | cons a l => rfl
  have htest : testAbs u.get_url = true := by
    rw [testAbs, hcand, hrest, hie, h.2.1]
    rfl
  rw [SrsHttpUri.parse, if_pos htest, hcand, hrest]
  rw [show (':' :: '/' :: '/' ::
      ((userinfoPart u ++ (u.host ++ portPart u)) ++ (u.path ++ queryPart u))).drop 3
    = ((userinfoPart u ++ (u.host ++ portPart u)) ++ (u.path ++ queryPart u)) from rfl]
  rw [parseAbs_eval u.schema _ (userinfoPart u ++ (u.host ++ portPart u))
    (u.path ++ queryPart u) u.username u.password (u.host ++ portPart u)
    (auth_recover h).1 (auth_recover h).2 (splitUserinfo_recover h)
    (hostport_no_at h) u.port (parsePort_recover h).1]
  rw [(parsePort_recover h).2, splitPathQuery_recover h.2.2.2.2.2.1]

theorem splitUserinfo_user_mem {auth : List Char} {c : Char}
    (hc : c ∈ (splitUserinfo auth).1) :
    (c != ':') = true ∧ (c != '@') = true ∧ c ∈ auth := by
  rw [splitUserinfo] at hc
  by_cases hat : auth.any (fun c => c == '@') = true
  · rw [if_pos hat] at hc
    have hc2 : c ∈ ((auth.takeWhile (fun c => c != '@')).takeWhile (fun c => c != ':')) := hc
    have h1 := mem_takeWhile_facts hc2
    have h2 := mem_takeWhile_facts h1.2
    exact ⟨h1.1, h2.1, h2.2⟩
  · rw [if_neg hat] at hc
    have hc2 : c ∈ ([] : List Char) := hc
    cases hc2

theorem splitUserinfo_pass_mem {auth : List Char} {c : Char}
    (hc : c ∈ (splitUserinfo auth).2.1) :
    (c != '@') = true ∧ c ∈ auth := by
  rw [splitUserinfo] at hc
  by_cases hat : auth.any (fun c => c == '@') = true
  · rw [if_pos hat] at hc
    have hc2 : c ∈ (((auth.takeWhile (fun c => c != '@')).dropWhile
        (fun c => c != ':')).drop 1) := hc
    have h1 := mem_takeWhile_facts (mem_dropWhile_mem (mem_drop_mem hc2))
    exact ⟨h1.1, h1.2⟩
  · rw [if_neg hat] at hc
    have hc2 : c ∈ ([] : List Char) := hc
    cases hc2

theorem splitUserinfo_hp_mem {auth : List Char} {c : Char}
    (hc : c ∈ (splitUserinfo auth).2.2) : c ∈ auth := by
  rw [splitUserinfo] at hc
  by_cases hat : auth.any (fun c => c == '@') = true
  · rw [if_pos hat] at hc
    have hc2 : c ∈ ((auth.dropWhile (fun c => c != '@')).drop 1) := hc
    exact mem_dropWhile_mem (mem_drop_mem hc2)
  · rw [if_neg hat] at hc
    exact hc

theorem parseAbs_sound {sc rest2 : List Char} {u : SrsHttpUri}
    (hsc1 : sc ≠ []) (hsc2 : sc.all isSchemaChar = true)
    (h : parseAbs sc rest2 = some u) : UriAbsWF u := by
  simp only [parseAbs] at h
  cases hg : (splitUserinfo (rest2.takeWhile (fun c => c != '/' && c != '?'))).2.2.any
      (fun c => c == '@') with
  | true =>
    rw [hg] at h
    simp at h
  | false =>
    rw [hg, if_neg Bool.false_ne_true] at h
    cases hpp : parsePort sc
        (splitUserinfo (rest2.takeWhile (fun c => c != '/' && c != '?'))).2.2 with
    | none =>
      rw [hpp] at h
      simp at h
    | some port =>
      rw [hpp] at h
      simp only [Option.some.injEq] at h
      subst h
      refine ⟨hsc1, hsc2, ?_, ?_, ?_, ?_, ?_⟩
      · intro c hc
        obtain ⟨h1, h2, h3⟩ := splitUserinfo_user_mem hc
        have h4 := (mem_takeWhile_facts h3).1
        obtain ⟨h5, h6⟩ : (c != '/') = true ∧ (c != '?') = true := by simpa using h4
        exact ⟨h1, h2, h5, h6⟩
      · intro c hc
        obtain ⟨h1, h2⟩ := splitUserinfo_pass_mem hc
        have h4 := (mem_takeWhile_facts h2).1
        obtain ⟨h5, h6⟩ : (c != '/') = true ∧ (c != '?') = true := by simpa using h4
        exact ⟨h1, h5, h6⟩
      · intro c hc
        have h1 := mem_takeWhile_facts hc
        have h2 : (c != '@') = true := by
          have h3 := List.any_eq_false.mp hg c h1.2
          simpa [bne] using h3
        have h4 := (mem_takeWhile_facts (splitUserinfo_hp_mem h1.2)).1
        obtain ⟨h5, h6⟩ : (c != '/') = true ∧ (c != '?') = true := by simpa using h4
        exact ⟨h1.1, h2, h5, h6⟩
      · intro c hc
        have hc2 : c ∈ ((rest2.dropWhile (fun c => c != '/' && c != '?')).takeWhile
            (fun c => c != '?')) := hc
        exact (mem_takeWhile_facts hc2).1
      · cases hpq : rest2.dropWhile (fun c => c != '/' && c != '?') with
        | nil =>
          left
          show (splitPathQuery ([] : List Char)).1 = []
          rfl
        | cons c0 cs0 =>
          have hc0 := dropWhile_head_false hpq
          have hcor : c0 = '/' ∨ c0 = '?' := by
            rcases Bool.and_eq_false_iff.mp hc0 with h1 | h1
            · left
              simpa using h1
            · right
              simpa using h1
          rcases hcor with rfl | rfl
          · right
            refine ⟨cs0.takeWhile (fun c => c != '?'), ?_⟩
            show ('/' :: cs0).takeWhile (fun c => c != '?')
              = '/' :: cs0.takeWhile (fun c => c != '?')
            rw [List.takeWhile_cons, if_pos (by decide)]
          · left
            show ('?' :: cs0).takeWhile (fun c => c != '?') = []
            rw [List.takeWhile_cons, if_neg (by decide)]

theorem parse_sound {l : List Char} {u : SrsHttpUri} (h : SrsHttpUri.parse l = some u) :
    (testAbs l = true ∧ UriAbsWF u) ∨ (testAbs l = false ∧ u = uriPathQuery l) := by
  rw [SrsHttpUri.parse] at h
  by_cases ht : testAbs l = true
  · rw [if_pos ht] at h
    have hta := ht
    rw [testAbs] at hta
    have h1 : schemaCand l ≠ [] := by
      intro hemp
      rw [hemp] at hta
      simp at hta
    have h2 : (schemaCand l).all isSchemaChar = true := by
      simp only [Bool.and_eq_true] at hta
      exact hta.1.2
    exact Or.inl ⟨ht, parseAbs_sound h1 h2 h⟩
  · have ht2 : testAbs l = false := by
      cases htb : testAbs l with
      | false => rfl
      | true => exact absurd htb ht
    rw [if_neg ht] at h
    injection h with hh
    exact Or.inr ⟨ht2, hh.symm⟩

theorem twdw_concat (P : Char → Bool) (l : List Char) :
    l.takeWhile P ++ l.dropWhile P = l := by
  induction l with
  | nil => rfl
  | cons a rest ih =>
    rw [List.takeWhile_cons, List.dropWhile_cons]
    by_cases ha : P a = true
    · rw [if_pos ha, if_pos ha, List.cons_append, ih]
    · rw [if_neg ha, if_neg ha]
      rfl

theorem testAbs_append_eq (path q1 q2 : List Char)
    (h1 : q1 = [] ∨ ∃ t, q1 = '?' :: t)
    (h2 : q2 = [] ∨ ∃ t, q2 = '?' :: t) :
    testAbs (path ++ q1) = testAbs (path ++ q2) := by
  cases hrest : path.dropWhile (fun c => c != ':') with
  | nil =>
    have hall : ∀ c ∈ path, ((fun c => c != ':') c) = true := dropWhile_nil_all hrest
    have key : ∀ q, (q = [] ∨ ∃ t, q = '?' :: t) → testAbs (path ++ q) = false := by
      intro q hq
      rcases hq with rfl | ⟨t, rfl⟩
      · rw [testAbs]
        have hsr : schemaRest (path ++ []) = [] := by
          rw [List.append_nil, schemaRest, hrest]
        rw [hsr]
        simp [restHasSlashes]
      · rw [testAbs]
        have hcand : schemaCand (path ++ '?' :: t)
            = path ++ '?' :: t.takeWhile (fun c => c != ':') := by
          rw [schemaCand, takeWhile_append_all _ hall, List.takeWhile_cons,
            if_pos (by decide)]
        have hallf : (schemaCand (path ++ '?' :: t)).all isSchemaChar = false := by
          rw [hcand]
          cases hq2 : (path ++ '?' :: t.takeWhile (fun c => c != ':')).all isSchemaChar with
          | false => rfl
          | true =>
            have hmem := List.all_eq_true.mp hq2 '?' (by simp)
            exact absurd hmem (by decide)
        rw [hallf]
        simp
    rw [key q1 h1, key q2 h2]
  | cons c cs =>
    have hcf0 := dropWhile_head_false hrest
    have hcf : (c != ':') = false := hcf0
    have hceq : c = ':' := by simpa using hcf
    subst hceq
    have hdec : path = path.takeWhile (fun c => c != ':') ++ ':' :: cs := by
      have h0 := twdw_concat (fun c => c != ':') path
      rw [hrest] at h0
      exact h0.symm
    have hx : ∀ a ∈ path.takeWhile (fun c => c != ':'), ((fun c => c != ':') a) = true :=
      fun a ha => (mem_takeWhile_facts ha).1
    have hkey : ∀ q, schemaCand (path ++ q) = path.takeWhile (fun c => c != ':')
        ∧ schemaRest (path ++ q) = ':' :: (cs ++ q) := by
      intro q
      have hs := twdw_split (fun c => c != ':') (path.takeWhile (fun c => c != ':'))
        (':' :: (cs ++ q)) hx (Or.inr ⟨':', _, rfl, by decide⟩)
      have hpq : path ++ q = path.takeWhile (fun c => c != ':') ++ (':' :: (cs ++ q)) := by
        conv_lhs => rw [hdec]
        simp [List.append_assoc]
      constructor
      · rw [schemaCand, hpq]
        exact hs.1
      · rw [schemaRest, hpq]
        exact hs.2
    have hrhs : restHasSlashes (':' :: (cs ++ q1)) = restHasSlashes (':' :: (cs ++ q2)) := by
      cases cs with
      | nil =>
        have hv : ∀ q, (q = [] ∨ ∃ t, q = '?' :: t) →
            restHasSlashes (':' :: (([] : List Char) ++ q)) = false := by
          intro q hq
          rcases hq with rfl | ⟨t, rfl⟩
          · rfl
          · rw [List.nil_append]
            cases t with
            | nil => rfl
            | cons a b => rfl
        rw [hv q1 h1, hv q2 h2]
      | cons a cs2 =>
        cases cs2 with
        | nil =>
          have hv : ∀ q, (q = [] ∨ ∃ t, q = '?' :: t) →
              restHasSlashes (':' :: (([a] : List Char) ++ q)) = false := by
            intro q hq
            rcases hq with rfl | ⟨t, rfl⟩
            · rfl
            · show ((':' == ':' && a == '/') && ('?' == '/')) = false
              simp
          rw [hv q1 h1, hv q2 h2]
        | cons b cs3 =>
          rfl
    rw [testAbs, testAbs, (hkey q1).1, (hkey q2).1, (hkey q1).2, (hkey q2).2, hrhs]

theorem uriPathQuery_relWF (l : List Char) : UriRelWF (uriPathQuery l) :=
  ⟨rfl, rfl, rfl, rfl, rfl, fun c hc => (mem_takeWhile_facts hc).1⟩

theorem parse_get_url_rel {u : SrsHttpUri} (hw : UriRelWF u)
    (ht : testAbs (u.path ++ queryPart u) = false) :
    SrsHttpUri.parse u.get_url = some u := by
  obtain ⟨us, uh, up, upa, uq, uun, upw⟩ := u
  obtain ⟨rfl, rfl, rfl, rfl, rfl, hpf⟩ := hw
  have hgu : SrsHttpUri.get_url ⟨[], [], 0, upa, uq, [], []⟩
      = upa ++ queryPart ⟨[], [], 0, upa, uq, [], []⟩ := by
    rw [SrsHttpUri.get_url, if_pos rfl]
  rw [hgu, SrsHttpUri.parse, if_neg (by rw [ht]; exact Bool.false_ne_true)]
  have hsp := splitPathQuery_recover hpf
  have h1 : ((upa ++ queryPart ⟨[], [], 0, upa, uq, [], []⟩).takeWhile
      (fun c => c != '?')) = upa := congrArg Prod.fst hsp
  have h2 : (((upa ++ queryPart ⟨[], [], 0, upa, uq, [], []⟩).dropWhile
      (fun c => c != '?')).drop 1) = uq := congrArg Prod.snd hsp
  rw [uriPathQuery, h1, h2]

/-! Claim C4: the URI parse and get-url round trip. -/

/-- Claim C4: for every URI text that SrsHttpUri parsing accepts,
re-parsing the reconstruction get_url yields exactly the same field set
(scheme, host, port, path, query, userinfo), and therefore the same
derived query map; the parse and serialize round trip is idempotent. -/
theorem c4_uri_roundtrip :
    ∀ (l : List Char) (u : SrsHttpUri),
      SrsHttpUri.parse l = some u →
      SrsHttpUri.parse u.get_url = some u ∧
      (SrsHttpUri.parse u.get_url).map (fun v => query_values v.query)
        = some (query_values u.query) := by
  intro l u h
  have hmain : SrsHttpUri.parse u.get_url = some u := by
    rcases parse_sound h with ⟨_, hwf⟩ | ⟨ht, hequ⟩
    · exact parse_get_url_abs hwf
    · subst hequ
      have hrel := uriPathQuery_relWF l
      have hl : (uriPathQuery l).path ++ l.dropWhile (fun c => c != '?') = l := by
        show l.takeWhile (fun c => c != '?') ++ l.dropWhile (fun c => c != '?') = l
        exact twdw_concat _ l
      have hshape1 : l.dropWhile (fun c => c != '?') = []
          ∨ ∃ t, l.dropWhile (fun c => c != '?') = '?' :: t := by
        cases hdw : l.dropWhile (fun c => c != '?') with
        | nil => exact Or.inl rfl
        | cons c0 cs0 =>
          have hc0 := dropWhile_head_false hdw
          have hc1 : (c0 != '?') = false := hc0
          have hc2 : c0 = '?' := by simpa using hc1
          subst hc2
          exact Or.inr ⟨cs0, rfl⟩
      have hshape2 : queryPart (uriPathQuery l) = []
          ∨ ∃ t, queryPart (uriPathQuery l) = '?' :: t := by
        rw [queryPart]
        by_cases hq : (uriPathQuery l).query = []
        · rw [if_pos hq]
          exact Or.inl rfl
        · rw [if_neg hq]
          exact Or.inr ⟨_, rfl⟩
      have htr := testAbs_append_eq (uriPathQuery l).path (queryPart (uriPathQuery l))
        (l.dropWhile (fun c => c != '?')) hshape2 hshape1
      have htf : testAbs ((uriPathQuery l).path ++ queryPart (uriPathQuery l)) = false := by
        rw [htr, hl]
        exact ht
      exact parse_get_url_rel hrel htf
  refine ⟨hmain, ?_⟩
  rw [hmain]
  rfl

/-- Claim C4 witness: the round trip at a full absolute URL with
userinfo, port and query. -/
theorem c4_uri_roundtrip_witness :
    SrsHttpUri.parse (SrsHttpUri.get_url ⟨"http".data, "example.com".data, 8080,
        "/live/a.flv".data, "token=1&b=2".data, "user".data, "pw".data⟩)
      = some ⟨"http".data, "example.com".data, 8080, "/live/a.flv".data,
        "token=1&b=2".data, "user".data, "pw".data⟩ :=
  (c4_uri_roundtrip "http://user:pw@example.com:8080/live/a.flv?token=1&b=2".data
    ⟨"http".data, "example.com".data, 8080, "/live/a.flv".data, "token=1&b=2".data,
      "user".data, "pw".data⟩ (by decide)).1
